import Mathlib

/-!
Verification of the content-generation pipeline of `rag_bot_container_weather`.

Python strings are modelled as `List Char` (`PyStr`): Python's `len`, slicing
and `in` operate on code points, which `List Char` mirrors exactly.  Python
floats (`distance`) are modelled as `Int`: every property proved here is about
the order of distances only, never their arithmetic.  Python's stable `sort` /
`sorted` is modelled by `List.insertionSort`, which is likewise stable.
-/

/-- Python `str` as a list of code points. -/
abbrev PyStr := List Char

/-- Convert a Lean string literal to the `PyStr` model. -/
def lit (s : String) : PyStr := s.toList

/-- The space code point, written via `Char.ofNat` (U+0020). -/
def spaceChar : Char := Char.ofNat 32

/-- The horizontal ellipsis code point appended by `_enforce_max_chars` (U+2026). -/
def ellipsisChar : Char := Char.ofNat 8230

/-- Python string comparison `a <= b`: lexicographic on code points.
Models the `<=` used implicitly by `list.sort(key=str, reverse=True)` in
`scripts/update_weather_feed.py`. -/
def pyStrLe : PyStr → PyStr → Bool
  | [], _ => true
  | _ :: _, [] => false
  | a :: as, b :: bs =>
    if a.val.toNat < b.val.toNat then true
    else if b.val.toNat < a.val.toNat then false
    else pyStrLe as bs

/-- Python `str.rstrip()` restricted to ASCII whitespace: drop trailing
whitespace characters.  (`_enforce_max_chars` only ever strips spaces, since
the text comes from a `" "`-rsplit.) -/
def pyRstrip (s : PyStr) : PyStr :=
  (s.reverse.dropWhile Char.isWhitespace).reverse

/-- Python `cut.rsplit(" ", 1)[0]`: everything strictly before the last space.
Only meaningful when `cut` contains a space, exactly as in the source where the
call is guarded by `if " " in cut`. -/
def cutLastSpace (s : PyStr) : PyStr :=
  ((s.reverse.dropWhile (fun c => !(c = spaceChar))).drop 1).reverse

/-- `src/backend/app/routers/rag.py` lines 213-219, `_enforce_max_chars`:

    def _enforce_max_chars(text: str, max_chars: int) -> str:
        if max_chars <= 0 or len(text) <= max_chars:
            return text
        cut = text[: max_chars - 1]
        if " " in cut:
            cut = cut.rsplit(" ", 1)[0]
        return cut.rstrip() + "…"
-/
def enforce_max_chars (text : PyStr) (max_chars : Int) : PyStr :=
  if max_chars ≤ 0 ∨ (text.length : Int) ≤ max_chars then text
  else
    let cut := text.take (max_chars - 1).toNat
    let cut2 := if spaceChar ∈ cut then cutLastSpace cut else cut
    pyRstrip cut2 ++ [ellipsisChar]

/-! ## Retrieval diversifier (`src/backend/app/routers/rag.py`, `query_rag` lines 376-392) -/

/-- A retrieved chunk as consumed by `query_rag`: its text, its similarity
`distance` (lower = closer; modelled as `Int`, only its order matters), and the
two metadata fields the dedup key looks at.  `none` models an absent key, and a
present-but-empty string is distinguished from an absent one because Python's
`or` chain treats the empty string as falsy. -/
structure RAGChunk where
  text : PyStr
  distance : Int
  meta_file : Option PyStr
  meta_doc_id : Option PyStr
deriving DecidableEq

/-- Python `a or b` for an optional string `a`: the value if present and
non-empty (truthy), else the fallback. -/
def pyOrStr (v : Option PyStr) (fallback : PyStr) : PyStr :=
  match v with
  | some s => if s = [] then fallback else s
  | none => fallback

/-- The dedup key of `query_rag`:
`meta.get("file") or meta.get("doc_id") or (c.text or "")[:40]`. -/
def dedupKey (c : RAGChunk) : PyStr :=
  pyOrStr c.meta_file (pyOrStr c.meta_doc_id (c.text.take 40))

/-- Ascending order on `distance`, the key of `sorted(chunks, key=lambda x: x.distance)`. -/
def distLe (a b : RAGChunk) : Prop := a.distance ≤ b.distance

instance : DecidableRel distLe := fun a b =>
  inferInstanceAs (Decidable (a.distance ≤ b.distance))

instance : IsTotal RAGChunk distLe := ⟨fun a b => Int.le_total a.distance b.distance⟩

instance : IsTrans RAGChunk distLe := ⟨fun _ _ _ => Int.le_trans⟩

/-- The greedy dedup loop of `query_rag`: walk the distance-sorted candidates,
skip a candidate whose key was already seen, and stop as soon as `want`
candidates were kept. -/
def diversifyLoop (want : Nat) : List RAGChunk → List PyStr → List RAGChunk → List RAGChunk
  | [], _, acc => acc.reverse
  | c :: rest, seen, acc =>
    if dedupKey c ∈ seen then diversifyLoop want rest seen acc
    else if want ≤ acc.length + 1 then (c :: acc).reverse
    else diversifyLoop want rest (dedupKey c :: seen) (c :: acc)

/-- The diversification step of `query_rag`: sort ascending by distance, run the
dedup loop, and fall back to `chunks[:want]` when the loop kept nothing
(`chunks = diversified or chunks[: payload.top_k]`). -/
def diversify (chunks : List RAGChunk) (want : Nat) : List RAGChunk :=
  let d := diversifyLoop want (List.insertionSort distLe chunks) [] []
  if d.isEmpty then chunks.take want else d

/-- Number of distinct dedup keys occurring in a candidate list. -/
def distinctKeys (chunks : List RAGChunk) : Nat :=
  ((chunks.map dedupKey).toFinset).card

/-- Helper: how many distinct keys of `cs` are not yet in `seen`. -/
def newKeys (cs : List RAGChunk) (seen : List PyStr) : Nat :=
  (((cs.map dedupKey).toFinset) \ seen.toFinset).card

/-! ## Feed store rolling upsert (`src/scripts/update_weather_feed.py`, `main` lines 77-89) -/

/-- A rolling-feed item as built by `update_weather_feed.main`:
`{"date": ..., "text": ...}` plus an optional `"place"`. -/
structure FeedItem where
  date : PyStr
  text : PyStr
  place : Option PyStr
deriving DecidableEq

/-- Descending order on `date`, the order of
`items.sort(key=lambda x: str(x.get("date", "")), reverse=True)`. -/
def dateDesc (a b : FeedItem) : Prop := pyStrLe b.date a.date = true

instance : DecidableRel dateDesc := fun a b =>
  inferInstanceAs (Decidable (pyStrLe b.date a.date = true))

/-- The rolling upsert of `update_weather_feed.main` lines 77-89: drop items
with the new date, append the new entry, sort by date descending (stable, as
Python's sort), and truncate to `max(1, limit)`. -/
def upsert_by_date (items : List FeedItem) (date text : PyStr) (place : Option PyStr)
    (limit : Int) : List FeedItem :=
  let kept := items.filter (fun x => decide (x.date ≠ date))
  let entry : FeedItem := ⟨date, text, place⟩
  let sorted := List.insertionSort dateDesc (kept ++ [entry])
  sorted.take (max 1 limit).toNat

/-- A whole run of upserts with a fixed `--limit`, starting from an empty feed:
each triple is one invocation's `(--date, --text, --place)`. -/
def apply_upserts (runs : List (PyStr × PyStr × Option PyStr)) (limit : Int) : List FeedItem :=
  runs.foldl (fun s r => upsert_by_date s r.1 r.2.1 r.2.2 limit) []

/-! ## Minimal JSON values (shared by the HTTP executor and the feed readers) -/

/-- A parsed JSON value as produced by `json.loads`. -/
inductive Jv where
  | jnull
  | jbool (b : Bool)
  | jnum (n : Int)
  | jstr (s : PyStr)
  | jarr (xs : List Jv)
  | jobj (fields : List (PyStr × Jv))

/-- Python truthiness of a JSON value (`if loaded:`, `or []`). -/
def pyTruthy : Jv → Bool
  | .jnull => false
  | .jbool b => b
  | .jnum n => decide (n ≠ 0)
  | .jstr s => decide (s ≠ [])
  | .jarr xs => !xs.isEmpty
  | .jobj fs => !fs.isEmpty

/-- `dict.get(k)` on the field list of a JSON object. -/
def jLookup (k : PyStr) : List (PyStr × Jv) → Option Jv
  | [] => none
  | (k2, v) :: rest => if k2 = k then some v else jLookup k rest

/-- Is the value a JSON object (`isinstance(obj, dict)`)? -/
def jIsObj : Jv → Bool
  | .jobj _ => true
  | _ => false

/-! ## Resilient request executor (`src/scripts/generate_talk.py`, `http_json` lines 83-144) -/

/-- The outcome of one raw attempt, as seen by `http_json`'s `try` body:
an `urllib.error.HTTPError` (with pre-read error body snippet), a
`TimeoutError`, any other exception, or a completed response carrying the raw
body together with its `json.loads` result (`none` = not valid JSON). -/
inductive AttemptRes where
  | httpError (code : Nat) (reason snippet : PyStr)
  | timeoutErr
  | otherErr (msg : PyStr)
  | response (raw : PyStr) (parsed : Option Jv)

/-- Decimal rendering of a number for the formatted error messages. -/
def natStr (n : Nat) : PyStr := (Nat.repr n).toList

/-- The body of one loop iteration of `http_json`: either the parsed non-empty
JSON-object body, or the error message that iteration would raise were it the
final attempt.  Message texts follow the source (the `!r` byte-repr quoting of
the non-JSON snippet is elided; the snippet is still truncated to 200). -/
def classifyAttempt (method url : PyStr) (maxTimeS : Nat) : AttemptRes → Except PyStr Jv
  | .response raw parsed =>
    if raw = [] then .error (lit "backend response body is empty (" ++ url ++ lit ")")
    else
      match parsed with
      | none => .error (lit "backend returned non-JSON body (" ++ url ++ lit "): " ++ raw.take 200)
      | some j =>
        if jIsObj j then .ok j
        else .error (lit "backend returned non-object JSON (" ++ url ++ lit ")")
  | .httpError code reason snippet =>
    .error (lit "HTTPError " ++ natStr code ++ lit " " ++ reason ++
      lit " (" ++ method ++ lit " " ++ url ++ lit ")" ++
      (if snippet = [] then [] else lit ": " ++ snippet.take 400))
  | .timeoutErr =>
    .error (lit "request timed out after " ++ natStr maxTimeS ++ lit "s (" ++
      method ++ lit " " ++ url ++ lit ")")
  | .otherErr msg =>
    .error (lit "request failed (" ++ method ++ lit " " ++ url ++ lit "): " ++ msg)

/-- Observable outcome of a `http_json` call: the returned value or raised
message, the number of attempts issued, and the number of `time.sleep` calls. -/
structure HttpOutcome where
  result : Except PyStr Jv
  attempts : Nat
  sleeps : Nat

/-- The retry loop of `http_json`, starting at attempt index `i` with
`remaining` further attempts allowed after the current one: a success returns
at once; a failure on the last allowed attempt raises that attempt's message;
any other failure sleeps and retries. -/
def httpLoop (f : Nat → Except PyStr Jv) : Nat → Nat → HttpOutcome
  | i, 0 =>
    match f i with
    | .ok j => ⟨.ok j, 1, 0⟩
    | .error m => ⟨.error m, 1, 0⟩
  | i, remaining + 1 =>
    match f i with
    | .ok j => ⟨.ok j, 1, 0⟩
    | .error _ =>
      let o := httpLoop f (i + 1) remaining
      ⟨o.result, o.attempts + 1, o.sleeps + 1⟩

/-- `http_json(method, url, payload, cfg)` with `cfg.retries = retries`, the
transport abstracted as the per-attempt outcome function `att`. -/
def http_json (att : Nat → AttemptRes) (method url : PyStr) (maxTimeS retries : Nat) :
    HttpOutcome :=
  httpLoop (fun i => classifyAttempt method url maxTimeS (att i)) 0 retries

/-! ## Feed file reading (`update_weather_feed.main` lines 69-88 and `generate_talk.append_feed` lines 451-477) -/

/-- What reading one pre-existing target file can observe: the file is absent,
it is unreadable (I/O or JSON parse error — both are swallowed), or it parses
to a JSON value. -/
inductive FileRead where
  | absent
  | unreadable
  | content (j : Jv)

/-- `update_weather_feed._load_json`: `None` on a missing file and on any other
read/parse failure, the parsed value otherwise. -/
def load_json : FileRead → Option Jv
  | .absent => none
  | .unreadable => none
  | .content j => some j

/-- The default feed of `update_weather_feed.main`: `{"items": []}`. -/
def feedDefault : Jv := Jv.jobj [(lit "items", Jv.jarr [])]

/-- `main`'s feed selection loop: take the first target whose `_load_json`
result is truthy, else keep the default. -/
def pickFeed : List FileRead → Jv
  | [] => feedDefault
  | r :: rest =>
    match load_json r with
    | some j => if pyTruthy j then j else pickFeed rest
    | none => pickFeed rest

/-- Python `list(v)` applied to a truthy value: lists iterate to themselves,
dicts to their keys, strings to their characters; numbers and booleans raise
`TypeError`. -/
def pyList : Jv → Except PyStr (List Jv)
  | .jarr xs => .ok xs
  | .jobj fs => .ok (fs.map (fun kv => Jv.jstr kv.1))
  | .jstr s => .ok (s.map (fun c => Jv.jstr [c]))
  | _ => .error (lit "TypeError: object is not iterable")

/-- The read half of the rolling upsert, `update_weather_feed.main` lines 69-77:
pick the feed, then `items = list(feed.get("items") or [])`.  `feed.get` on a
non-dict value raises `AttributeError`. -/
def upsertLoadItems (reads : List FileRead) : Except PyStr (List Jv) :=
  match pickFeed reads with
  | .jobj fs =>
    let v := (jLookup (lit "items") fs).getD Jv.jnull
    if pyTruthy v then pyList v else .ok []
  | _ => .error (lit "AttributeError: object has no attribute get")

/-- Replace the value of an existing key in a JSON-object field list
(`feed_obj["items"] = items`). -/
def setKey (k : PyStr) (v : Jv) : List (PyStr × Jv) → List (PyStr × Jv)
  | [] => []
  | (k2, w) :: rest => if k2 = k then (k2, v) :: rest else (k2, w) :: setKey k v rest

/-- One target of `generate_talk.append_feed` lines 451-477: read the existing
file (any failure resets to `[]`), then insert the entry at the front of
whichever shape was found, falling back to `[entry]` for any other shape. -/
def append_feed_merge (r : FileRead) (entry : Jv) : Jv :=
  let feedObj := (load_json r).getD (Jv.jarr [])
  match feedObj with
  | .jobj fs =>
    match jLookup (lit "items") fs with
    | some v =>
      let items := match v with | .jarr xs => xs | _ => []
      Jv.jobj (setKey (lit "items") (Jv.jarr (entry :: items)) fs)
    | none => Jv.jarr [entry]
  | .jarr xs => Jv.jarr (entry :: xs)
  | _ => Jv.jarr [entry]

/-- The newest-first item list of a written feed value. -/
def feedItemsOf : Jv → List Jv
  | .jarr xs => xs
  | .jobj fs =>
    match jLookup (lit "items") fs with
    | some (.jarr xs) => xs
    | _ => []
  | _ => []

/-! ## File writing (`update_weather_feed._atomic_write` lines 26-30, `generate_talk.write_json` lines 409-411) -/

/-- The filesystem operations a write routine issues, in order. -/
inductive FsOp where
  | mkdirParent (path : PyStr)
  | writeFile (path : PyStr) (content : PyStr)
  | rename (src dst : PyStr)
deriving DecidableEq

/-- `path.with_suffix(path.suffix + ".tmp")`: the temporary sibling name. -/
def tmpName (p : PyStr) : PyStr := p ++ lit ".tmp"

/-- `update_weather_feed._atomic_write`: ensure the parent directory, write the
temporary sibling, rename it over the destination. -/
def atomic_write_ops (p content : PyStr) : List FsOp :=
  [.mkdirParent p, .writeFile (tmpName p) content, .rename (tmpName p) p]

/-- `generate_talk.write_json`: ensure the parent directory, then write the
destination path directly (`path.write_text(...)`). -/
def write_json_ops (p content : PyStr) : List FsOp :=
  [.mkdirParent p, .writeFile p content]

/-- A write sequence replaces `dst` atomically if it never writes `dst`
directly and the content instead arrives by renaming a different path over
`dst`. -/
def atomicReplaceFor (dst : PyStr) (ops : List FsOp) : Bool :=
  (ops.all fun op =>
    match op with
    | .writeFile q _ => decide (q ≠ dst)
    | _ => true) &&
  (ops.any fun op =>
    match op with
    | .rename t d => decide (d = dst) && decide (t ≠ dst)
    | _ => false)

/-! ## Time & greeting resolver -/

/-- The greeting labels of spec §4.3. -/
inductive Greeting where
  | christmasEve
  | christmas
  | newYearsEve
  | newYear
  | morning
  | afternoon
  | evening
  | night
deriving DecidableEq

/-- Modelled from the spec: the repository has no executable greeting resolver —
the decision table exists only as prompt instructions inside
`rag.py._build_chat_prompts` (lines 245-270) and `generate_talk.build_question`
(lines 299-304).  This definition follows spec §4.3 word for word: calendar
override first (Dec-24, Dec-25, Dec-31, Jan-01 through Jan-04, inclusive), else
the hour bands [05,11) morning, [11,17) afternoon, [17,22) evening, night
otherwise. -/
def resolveGreeting (month day hour : Nat) : Greeting :=
  if month = 12 ∧ day = 24 then .christmasEve
  else if month = 12 ∧ day = 25 then .christmas
  else if month = 12 ∧ day = 31 then .newYearsEve
  else if month = 1 ∧ 1 ≤ day ∧ day ≤ 4 then .newYear
  else if 5 ≤ hour ∧ hour < 11 then .morning
  else if 11 ≤ hour ∧ hour < 17 then .afternoon
  else if 17 ≤ hour ∧ hour < 22 then .evening
  else .night

/-- Does the month-day fall under the calendar override of the decision table? -/
def holidayOverride (month day : Nat) : Bool :=
  (decide (month = 12) && (decide (day = 24) || decide (day = 25) || decide (day = 31))) ||
  (decide (month = 1) && decide (1 ≤ day) && decide (day ≤ 4))

/-! ## Deterministic topic selector (`src/scripts/generate_talk.py`, `pick_topic` lines 224-250) -/

/-- `TOPIC_FAMILIES` of `generate_talk.py`. -/
def TOPIC_FAMILIES : List PyStr :=
  [lit "season", lit "food", lit "culture", lit "history",
   lit "nature", lit "tips", lit "events", lit "running"]

/-- `TOPIC_MODES` of `generate_talk.py`. -/
def TOPIC_MODES : List PyStr :=
  [lit "fact", lit "question", lit "mini_story", lit "recommendation"]

/-- The hour-band-reordered family candidate list of `pick_topic`. -/
def familiesForHour (hour : Nat) : List PyStr :=
  if 5 ≤ hour ∧ hour ≤ 10 then
    [lit "tips", lit "running", lit "food", lit "season",
     lit "nature", lit "culture", lit "history", lit "events"]
  else if 11 ≤ hour ∧ hour ≤ 15 then
    [lit "food", lit "culture", lit "history", lit "events",
     lit "season", lit "nature", lit "tips", lit "running"]
  else if 16 ≤ hour ∧ hour ≤ 21 then
    [lit "events", lit "culture", lit "food", lit "history",
     lit "season", lit "nature", lit "tips", lit "running"]
  else
    [lit "season", lit "history", lit "culture", lit "nature",
     lit "tips", lit "food", lit "events", lit "running"]

/-- The mode candidate list handed to the second `rng.choice`:
`["recommendation", "fact", "question", "mini_story"]` when
`topic_family in ("tips", "recommendation")`, else `TOPIC_MODES`. -/
def modeCandidates (family : PyStr) : List PyStr :=
  if family = lit "tips" ∨ family = lit "recommendation" then
    [lit "recommendation", lit "fact", lit "question", lit "mini_story"]
  else TOPIC_MODES

/-- `pick_topic` with the seeded Mersenne-Twister draws abstracted as the two
choice indices `i` (family) and `j` (mode): `rng.choice(seq)` returns
`seq[k]` for some `k < len(seq)`, modelled as the index modulo the length. -/
def pick_topic (hour : Nat) (i j : Nat) : PyStr × PyStr :=
  let fams := familiesForHour hour
  let fam := fams.getD (i % fams.length) []
  let modes := modeCandidates fam
  (fam, modes.getD (j % modes.length) [])


/-! ## Lemmas about the post-processor -/

theorem pyRstrip_append_eq (s : PyStr) : ∃ r, pyRstrip s ++ r = s := by
  refine ⟨(s.reverse.takeWhile Char.isWhitespace).reverse, ?_⟩
  unfold pyRstrip
  rw [← List.reverse_append, List.takeWhile_append_dropWhile, List.reverse_reverse]

theorem length_pyRstrip_le (s : PyStr) : (pyRstrip s).length ≤ s.length := by
  unfold pyRstrip
  rw [List.length_reverse]
  calc (s.reverse.dropWhile Char.isWhitespace).length
      ≤ s.reverse.length := (List.dropWhile_sublist _).length_le
    _ = s.length := List.length_reverse s

theorem cutLastSpace_append_eq (s : PyStr) : ∃ r, cutLastSpace s ++ r = s := by
  refine ⟨((s.reverse.dropWhile (fun c => !(c = spaceChar))).take 1).reverse ++
    (s.reverse.takeWhile (fun c => !(c = spaceChar))).reverse, ?_⟩
  unfold cutLastSpace
  rw [← List.append_assoc, ← List.reverse_append, List.take_append_drop,
    ← List.reverse_append, List.takeWhile_append_dropWhile, List.reverse_reverse]

theorem length_cutLastSpace_le (s : PyStr) : (cutLastSpace s).length ≤ s.length := by
  unfold cutLastSpace
  rw [List.length_reverse]
  calc ((s.reverse.dropWhile (fun c => !(c = spaceChar))).drop 1).length
      ≤ (s.reverse.dropWhile (fun c => !(c = spaceChar))).length :=
        (List.drop_sublist _ _).length_le
    _ ≤ s.reverse.length := (List.dropWhile_sublist _).length_le
    _ = s.length := List.length_reverse s

theorem enforce_max_chars_passthrough {text : PyStr} {max_chars : Int}
    (h : max_chars ≤ 0 ∨ (text.length : Int) ≤ max_chars) :
    enforce_max_chars text max_chars = text := by
  unfold enforce_max_chars
  rw [if_pos h]

theorem enforce_max_chars_truncate_length {text : PyStr} {max_chars : Int}
    (h1 : 1 ≤ max_chars) (h2 : max_chars < (text.length : Int)) :
    (enforce_max_chars text max_chars).length ≤ max_chars.toNat := by
  unfold enforce_max_chars
  rw [if_neg (by omega)]
  have hcut : (text.take (max_chars - 1).toNat).length ≤ (max_chars - 1).toNat :=
    List.length_take_le _ _
  have hc2 : (if spaceChar ∈ text.take (max_chars - 1).toNat then
      cutLastSpace (text.take (max_chars - 1).toNat)
    else text.take (max_chars - 1).toNat).length ≤ (max_chars - 1).toNat := by
    split
    · exact le_trans (length_cutLastSpace_le _) hcut
    · exact hcut
  have hr := length_pyRstrip_le (if spaceChar ∈ text.take (max_chars - 1).toNat then
      cutLastSpace (text.take (max_chars - 1).toNat)
    else text.take (max_chars - 1).toNat)
  rw [List.length_append]
  simp only [List.length_cons, List.length_nil]
  omega

/-- C4 counterexample: the claim's own example is false on the code.  The
prefix `text[:9]` of `"The quick brown fox jumps"` is `"The quick"`, which
contains a space, so `rsplit(" ", 1)[0]` cuts back to `"The"` and the function
returns `"The…"`, not `"The quick…"`. -/
theorem C4_counterexample :
    enforce_max_chars (lit "The quick brown fox jumps") 10 = lit "The…" ∧
    enforce_max_chars (lit "The quick brown fox jumps") 10 ≠ lit "The quick…" := by
  decide

/-- C4 (amended): for every string longer than `maxChars` (with `maxChars > 0`),
`_enforce_max_chars` truncates to the `maxChars - 1` character prefix, backs off
to the last space boundary if one exists within that prefix (dropping the
boundary space and any trailing whitespace), and appends a single ellipsis
character — the kept text is a prefix of the truncation; in particular
`finalize("The quick brown fox jumps", 10) == "The…"`, and for `maxChars <= 0`
the text passes through unmodified. -/
theorem C4_enforce_max_chars_amended (text : PyStr) (max_chars : Int) :
    (max_chars ≤ 0 → enforce_max_chars text max_chars = text) ∧
    (1 ≤ max_chars → max_chars < (text.length : Int) →
      ∃ w rest, enforce_max_chars text max_chars = w ++ [ellipsisChar] ∧
        w ++ rest = text.take (max_chars - 1).toNat ∧
        w = pyRstrip (if spaceChar ∈ text.take (max_chars - 1).toNat then
            cutLastSpace (text.take (max_chars - 1).toNat)
          else text.take (max_chars - 1).toNat)) ∧
    enforce_max_chars (lit "The quick brown fox jumps") 10 = lit "The…" := by
  refine ⟨fun h => enforce_max_chars_passthrough (Or.inl h), fun h1 h2 => ?_, by decide⟩
  set cut := text.take (max_chars - 1).toNat with hcut
  set cut2 := if spaceChar ∈ cut then cutLastSpace cut else cut with hcut2
  have hpre : ∃ r1, cut2 ++ r1 = cut := by
    rw [hcut2]
    split
    · exact cutLastSpace_append_eq cut
    · exact ⟨[], List.append_nil cut⟩
  obtain ⟨r1, hr1⟩ := hpre
  obtain ⟨r0, hr0⟩ := pyRstrip_append_eq cut2
  refine ⟨pyRstrip cut2, r0 ++ r1, ?_, ?_, rfl⟩
  · unfold enforce_max_chars
    rw [if_neg (by omega)]
  · rw [← List.append_assoc, hr0, hr1]

/-- C4 witness: the amended truncation property applied at a concrete input. -/
theorem C4_enforce_max_chars_amended_witness :
    (1 ≤ (10 : Int)) ∧ ((10 : Int) < ((lit "The quick brown fox jumps").length : Int)) ∧
    (∃ w rest, enforce_max_chars (lit "The quick brown fox jumps") 10 = w ++ [ellipsisChar] ∧
      w ++ rest = (lit "The quick brown fox jumps").take ((10 : Int) - 1).toNat ∧
      w = pyRstrip (if spaceChar ∈ (lit "The quick brown fox jumps").take ((10 : Int) - 1).toNat then
          cutLastSpace ((lit "The quick brown fox jumps").take ((10 : Int) - 1).toNat)
        else (lit "The quick brown fox jumps").take ((10 : Int) - 1).toNat)) :=
  ⟨by decide, by decide,
    (C4_enforce_max_chars_amended (lit "The quick brown fox jumps") 10).2.1
      (by decide) (by decide)⟩

/-- C5: the post-processor `_enforce_max_chars` is idempotent for any positive
budget: applying it twice with the same `N > 0` equals applying it once. -/
theorem C5_finalize_idempotent (x : PyStr) (N : Int) (h : 0 < N) :
    enforce_max_chars (enforce_max_chars x N) N = enforce_max_chars x N := by
  by_cases hc : (x.length : Int) ≤ N
  · rw [enforce_max_chars_passthrough (Or.inr hc), enforce_max_chars_passthrough (Or.inr hc)]
  · have hlen : (enforce_max_chars x N).length ≤ N.toNat :=
      enforce_max_chars_truncate_length (by omega) (by omega)
    exact enforce_max_chars_passthrough (Or.inr (by omega))

/-- C5 witness: idempotence applied at a concrete input with `N = 3 > 0`. -/
theorem C5_finalize_idempotent_witness :
    (0 : Int) < 3 ∧
    enforce_max_chars (enforce_max_chars (lit "ab cd") 3) 3 =
      enforce_max_chars (lit "ab cd") 3 :=
  ⟨by decide, C5_finalize_idempotent (lit "ab cd") 3 (by decide)⟩

/-- C10: for every input string and every `maxChars >= 1`, the length of
`_enforce_max_chars(text, maxChars)` is at most `max(len(text), maxChars)`;
whenever `len(text) > maxChars` the result has length at most `maxChars`, and
whenever `len(text) <= maxChars` the result is the text unchanged. -/
theorem C10_enforce_length_bound (text : PyStr) (max_chars : Int) (h : 1 ≤ max_chars) :
    (enforce_max_chars text max_chars).length ≤ max text.length max_chars.toNat ∧
    (max_chars < (text.length : Int) →
      (enforce_max_chars text max_chars).length ≤ max_chars.toNat) ∧
    ((text.length : Int) ≤ max_chars → enforce_max_chars text max_chars = text) := by
  by_cases hc : (text.length : Int) ≤ max_chars
  · rw [enforce_max_chars_passthrough (Or.inr hc)]
    exact ⟨le_max_left _ _, fun hlt => absurd hc (by omega), fun _ => rfl⟩
  · have hlen : (enforce_max_chars text max_chars).length ≤ max_chars.toNat :=
      enforce_max_chars_truncate_length h (by omega)
    exact ⟨le_trans hlen (le_max_right _ _), fun _ => hlen, fun hle => absurd hle hc⟩

/-- C10 witness: the length bound applied at a concrete input. -/
theorem C10_enforce_length_bound_witness :
    (1 : Int) ≤ 5 ∧
    ((enforce_max_chars (lit "abc def") 5).length ≤ max (lit "abc def").length (5 : Int).toNat ∧
    ((5 : Int) < ((lit "abc def").length : Int) →
      (enforce_max_chars (lit "abc def") 5).length ≤ (5 : Int).toNat) ∧
    (((lit "abc def").length : Int) ≤ 5 → enforce_max_chars (lit "abc def") 5 = lit "abc def")) :=
  ⟨by decide, C10_enforce_length_bound (lit "abc def") 5 (by decide)⟩

/-! ## Lemmas about writes, topics and greetings -/

theorem tmpName_ne (p : PyStr) : tmpName p ≠ p := by
  intro h
  have h4 : (lit ".tmp").length = 4 := by rfl
  have hlen : (tmpName p).length = p.length + 4 := by
    rw [tmpName, List.length_append, h4]
  have := congrArg List.length h
  omega

/-- C7 counterexample: `generate_talk.write_json` — the writer used by
`append_feed` and `write_latest` for every log-feed and latest-pointer target —
writes the destination path directly, with no temporary sibling and no rename,
so its operation sequence is not an atomic replace. -/
theorem C7_counterexample :
    atomicReplaceFor (lit "feed.json")
      (write_json_ops (lit "feed.json") (lit "content")) = false := by
  decide

/-- C7 (amended): writes by the rolling-upsert script
(`update_weather_feed._atomic_write`, used for all feed targets and the latest
pointer) are atomic — the content goes to a temporary sibling which is renamed
over the destination, and the destination is never written directly; writes by
the talk-generation script (`generate_talk.write_json`, used by `append_feed`
and `write_latest`) write the destination path directly and are not atomic. -/
theorem C7_atomicity_amended (p content : PyStr) :
    atomicReplaceFor p (atomic_write_ops p content) = true ∧
    atomicReplaceFor p (write_json_ops p content) = false := by
  have hne := tmpName_ne p
  constructor
  · simp [atomicReplaceFor, atomic_write_ops, hne]
  · simp [atomicReplaceFor, write_json_ops]

theorem getD_mem_of_lt {α : Type} (l : List α) (n : Nat) (d : α) (h : n < l.length) :
    l.getD n d ∈ l := by
  induction l generalizing n with
  | nil => simp at h
  | cons a t ih =>
    cases n with
    | zero => exact List.mem_cons_self a t
    | succ m =>
      simp only [List.getD_cons_succ]
      exact List.mem_cons_of_mem a (ih m (by simpa using h))

theorem modeCandidates_toFinset (family : PyStr) :
    (modeCandidates family).toFinset = TOPIC_MODES.toFinset := by
  unfold modeCandidates
  split
  · decide
  · rfl

theorem modeCandidates_length (family : PyStr) : (modeCandidates family).length = 4 := by
  unfold modeCandidates
  split <;> rfl

theorem familiesForHour_length (hour : Nat) : (familiesForHour hour).length = 8 := by
  unfold familiesForHour
  repeat' split <;> try rfl

/-- C9 counterexample: for the practical-advice family `"tips"` the mode
candidate list handed to the draw still has all four members — merely reordered
to lead with `"recommendation"` — and each of the four modes is returned for
some draw of the seeded generator, so no mode "can never be returned". -/
theorem C9_counterexample :
    modeCandidates (lit "tips") =
      [lit "recommendation", lit "fact", lit "question", lit "mini_story"] ∧
    (modeCandidates (lit "tips")).length = 4 ∧
    TOPIC_MODES = [lit "fact", lit "question", lit "mini_story", lit "recommendation"] ∧
    pick_topic 6 0 0 = (lit "tips", lit "recommendation") ∧
    pick_topic 6 0 1 = (lit "tips", lit "fact") ∧
    pick_topic 6 0 2 = (lit "tips", lit "question") ∧
    pick_topic 6 0 3 = (lit "tips", lit "mini_story") := by
  decide

/-- C9 (amended): for every local hour and every draw of the seeded generator,
the topic family comes from the hour-band candidate list and the mode comes
from the 4-member mode set; for a practical-advice family the candidate list is
reordered (leading with `"recommendation"`) but never narrowed — its member set
always equals the full mode set. -/
theorem C9_pick_topic_amended :
    (∀ family, (modeCandidates family).toFinset = TOPIC_MODES.toFinset) ∧
    (∀ hour i j, (pick_topic hour i j).1 ∈ familiesForHour hour ∧
      (pick_topic hour i j).2 ∈ TOPIC_MODES) := by
  refine ⟨modeCandidates_toFinset, fun hour i j => ⟨?_, ?_⟩⟩
  · have hm : i % (familiesForHour hour).length < (familiesForHour hour).length := by
      rw [familiesForHour_length]
      exact Nat.mod_lt _ (by omega)
    simpa [pick_topic] using getD_mem_of_lt (familiesForHour hour) _ [] hm
  · have hmem := getD_mem_of_lt
      (modeCandidates ((familiesForHour hour).getD (i % (familiesForHour hour).length) []))
      (j % (modeCandidates
        ((familiesForHour hour).getD (i % (familiesForHour hour).length) [])).length) []
      (by rw [modeCandidates_length]; exact Nat.mod_lt _ (by omega))
    rw [← List.mem_toFinset, modeCandidates_toFinset, List.mem_toFinset] at hmem
    exact hmem

/-- C8: the greeting resolver is a pure decision table evaluated in precedence
order, calendar override first: Dec-24 / Dec-25 / Dec-31 / Jan-01-through-
Jan-04 month-days yield the corresponding holiday greeting regardless of hour
(in particular `resolveGreeting(12-25, 08:00)` is the Christmas greeting), and
otherwise the hour bands [05,11) morning, [11,17) afternoon, [17,22) evening,
and [22,24)∪[00,05) night decide the label. -/
theorem C8_resolve_greeting (month day hour : Nat) :
    (∀ h2, resolveGreeting 12 24 h2 = Greeting.christmasEve) ∧
    (∀ h2, resolveGreeting 12 25 h2 = Greeting.christmas) ∧
    (∀ h2, resolveGreeting 12 31 h2 = Greeting.newYearsEve) ∧
    (∀ d h2, 1 ≤ d → d ≤ 4 → resolveGreeting 1 d h2 = Greeting.newYear) ∧
    resolveGreeting 12 25 8 = Greeting.christmas ∧
    (holidayOverride month day = false →
      (5 ≤ hour → hour < 11 → resolveGreeting month day hour = Greeting.morning) ∧
      (11 ≤ hour → hour < 17 → resolveGreeting month day hour = Greeting.afternoon) ∧
      (17 ≤ hour → hour < 22 → resolveGreeting month day hour = Greeting.evening) ∧
      (hour < 5 ∨ 22 ≤ hour → resolveGreeting month day hour = Greeting.night)) ∧
    resolveGreeting 6 10 6 = Greeting.morning ∧
    resolveGreeting 6 10 23 = Greeting.night := by
  refine ⟨fun h2 => by simp [resolveGreeting], fun h2 => by simp [resolveGreeting],
    fun h2 => by simp [resolveGreeting], fun d h2 hd1 hd4 => ?_, by decide, fun hno => ?_,
    by decide, by decide⟩
  · unfold resolveGreeting
    rw [if_neg (by omega), if_neg (by omega), if_neg (by omega), if_pos ⟨rfl, hd1, hd4⟩]
  · have hno1 : ¬(month = 12 ∧ day = 24) := by
      rintro ⟨rfl, rfl⟩
      simp [holidayOverride] at hno
    have hno2 : ¬(month = 12 ∧ day = 25) := by
      rintro ⟨rfl, rfl⟩
      simp [holidayOverride] at hno
    have hno3 : ¬(month = 12 ∧ day = 31) := by
      rintro ⟨rfl, rfl⟩
      simp [holidayOverride] at hno
    have hno4 : ¬(month = 1 ∧ 1 ≤ day ∧ day ≤ 4) := by
      rintro ⟨rfl, hd1, hd4⟩
      simp [holidayOverride] at hno
      omega
    refine ⟨fun ha hb => ?_, fun ha hb => ?_, fun ha hb => ?_, fun hab => ?_⟩ <;>
      (unfold resolveGreeting; rw [if_neg hno1, if_neg hno2, if_neg hno3, if_neg hno4])
    · rw [if_pos ⟨ha, hb⟩]
    · rw [if_neg (by omega), if_pos ⟨ha, hb⟩]
    · rw [if_neg (by omega), if_neg (by omega), if_pos ⟨ha, hb⟩]
    · rw [if_neg (by omega), if_neg (by omega), if_neg (by omega)]

/-- C8 witness: the decision table applied on a non-holiday date (Jun-10) at
hour 6, and the holiday clause at a concrete day. -/
theorem C8_resolve_greeting_witness :
    holidayOverride 6 10 = false ∧
    (1 : Nat) ≤ 3 ∧ (3 : Nat) ≤ 4 ∧
    resolveGreeting 6 10 6 = Greeting.morning ∧
    resolveGreeting 1 3 15 = Greeting.newYear :=
  ⟨by decide, by decide, by decide,
    (((C8_resolve_greeting 6 10 6).2.2.2.2.2.1 (by decide)).1 (by decide) (by decide)),
    ((C8_resolve_greeting 6 10 6).2.2.2.1 3 15 (by decide) (by decide))⟩

/-! ## Feed reading and the retry loop -/

theorem jLookup_setKey (k : PyStr) (v : Jv) (fs : List (PyStr × Jv))
    (h : (jLookup k fs).isSome) : jLookup k (setKey k v fs) = some v := by
  induction fs with
  | nil => simp [jLookup] at h
  | cons p rest ih =>
    obtain ⟨k2, w⟩ := p
    by_cases hk : k2 = k
    · simp [jLookup, setKey, hk]
    · simp only [jLookup, setKey, if_neg hk] at h ⊢
      exact ih h

/-- C6 counterexample: a pre-existing target whose content is a non-empty bare
JSON sequence makes the rolling upsert fail on read — the loaded value is
truthy, so it is adopted as the feed, and `feed.get("items")` then raises
`AttributeError` because a list has no `get`. -/
theorem C6_counterexample :
    upsertLoadItems [FileRead.content (Jv.jarr [Jv.jnum 1])] =
      Except.error (lit "AttributeError: object has no attribute get") := by
  rfl

/-- C6 (amended): the log append (`generate_talk.append_feed`) tolerates every
pre-existing content — absent, unreadable, a bare sequence, or any other
shape — and always proceeds, placing the new entry at the front of the
resulting item list.  The rolling upsert (`update_weather_feed.main`) tolerates
absent and unreadable targets (downgrading to the empty feed), but a truthy
non-object content such as a non-empty bare JSON sequence makes its read fail. -/
theorem C6_feed_read_amended :
    (∀ reads, (∀ r ∈ reads, load_json r = none) → upsertLoadItems reads = Except.ok []) ∧
    (∀ entry, append_feed_merge FileRead.absent entry = Jv.jarr [entry]) ∧
    (∀ entry, append_feed_merge FileRead.unreadable entry = Jv.jarr [entry]) ∧
    (∀ entry xs, append_feed_merge (FileRead.content (Jv.jarr xs)) entry =
      Jv.jarr (entry :: xs)) ∧
    (∀ entry j, (feedItemsOf (append_feed_merge (FileRead.content j) entry)).head? =
      some entry) := by
  refine ⟨?_, fun entry => rfl, fun entry => rfl, fun entry xs => rfl, fun entry j => ?_⟩
  · intro reads hnone
    have hpick : pickFeed reads = feedDefault := by
      induction reads with
      | nil => rfl
      | cons r rest ih =>
        have hr := hnone r (List.mem_cons_self r rest)
        have hrest : ∀ x ∈ rest, load_json x = none :=
          fun x hx => hnone x (List.mem_cons_of_mem r hx)
        simp [pickFeed, hr, ih hrest]
    simp [upsertLoadItems, hpick, feedDefault, jLookup, pyTruthy]
  · cases j with
    | jobj fs =>
      simp only [append_feed_merge, load_json, Option.getD_some]
      cases hlk : jLookup (lit "items") fs with
      | none => rfl
      | some v =>
        cases v with
        | jarr xs =>
          have hset := jLookup_setKey (lit "items") (Jv.jarr (entry :: xs)) fs
            (by rw [hlk]; rfl)
          simp [feedItemsOf, hset]
        | jnull =>
          have hset := jLookup_setKey (lit "items") (Jv.jarr [entry]) fs (by rw [hlk]; rfl)
          simp [feedItemsOf, hset]
        | jbool b =>
          have hset := jLookup_setKey (lit "items") (Jv.jarr [entry]) fs (by rw [hlk]; rfl)
          simp [feedItemsOf, hset]
        | jnum n =>
          have hset := jLookup_setKey (lit "items") (Jv.jarr [entry]) fs (by rw [hlk]; rfl)
          simp [feedItemsOf, hset]
        | jstr s =>
          have hset := jLookup_setKey (lit "items") (Jv.jarr [entry]) fs (by rw [hlk]; rfl)
          simp [feedItemsOf, hset]
        | jobj fs2 =>
          have hset := jLookup_setKey (lit "items") (Jv.jarr [entry]) fs (by rw [hlk]; rfl)
          simp [feedItemsOf, hset]
    | jnull => rfl
    | jbool b => rfl
    | jnum n => rfl
    | jstr s => rfl
    | jarr xs => rfl

/-- C6 witness: the upsert read applied to tolerated targets (one absent, one
unreadable) yields the empty item list. -/
theorem C6_feed_read_amended_witness :
    upsertLoadItems [FileRead.absent, FileRead.unreadable] = Except.ok [] :=
  C6_feed_read_amended.1 [FileRead.absent, FileRead.unreadable]
    (by intro r hr; simp at hr; rcases hr with rfl | rfl <;> rfl)

theorem httpLoop_spec (f : Nat → Except PyStr Jv) (remaining : Nat) : ∀ i,
    (httpLoop f i remaining).attempts ≤ remaining + 1 ∧
    (httpLoop f i remaining).sleeps + 1 = (httpLoop f i remaining).attempts ∧
    (∀ k v, k ≤ remaining → (∀ m, m < k → ∃ e, f (i + m) = Except.error e) →
      f (i + k) = Except.ok v →
      (httpLoop f i remaining).result = Except.ok v ∧
      (httpLoop f i remaining).attempts = k + 1) ∧
    ((∀ m, m ≤ remaining → ∃ e, f (i + m) = Except.error e) →
      ∃ e, f (i + remaining) = Except.error e ∧
        (httpLoop f i remaining).result = Except.error e ∧
        (httpLoop f i remaining).attempts = remaining + 1) := by
  induction remaining with
  | zero =>
    intro i
    cases hf : f i with
    | ok j =>
      refine ⟨by simp [httpLoop, hf], by simp [httpLoop, hf], ?_, ?_⟩
      · intro k v hk _ hfk
        have hk0 : k = 0 := by omega
        subst hk0
        rw [Nat.add_zero, hf] at hfk
        cases hfk
        simp [httpLoop, hf]
      · intro hall
        obtain ⟨e, he⟩ := hall 0 (by omega)
        rw [Nat.add_zero, hf] at he
        cases he
    | error e0 =>
      refine ⟨by simp [httpLoop, hf], by simp [httpLoop, hf], ?_, ?_⟩
      · intro k v hk _ hfk
        have hk0 : k = 0 := by omega
        subst hk0
        rw [Nat.add_zero, hf] at hfk
        cases hfk
      · intro _
        exact ⟨e0, by rw [Nat.add_zero, hf], by simp [httpLoop, hf], by simp [httpLoop, hf]⟩
  | succ n ih =>
    intro i
    cases hf : f i with
    | ok j =>
      refine ⟨by simp [httpLoop, hf], by simp [httpLoop, hf], ?_, ?_⟩
      · intro k v hk hprev hfk
        cases k with
        | zero =>
          rw [Nat.add_zero, hf] at hfk
          cases hfk
          simp [httpLoop, hf]
        | succ k2 =>
          obtain ⟨e, he⟩ := hprev 0 (by omega)
          rw [Nat.add_zero, hf] at he
          cases he
      · intro hall
        obtain ⟨e, he⟩ := hall 0 (by omega)
        rw [Nat.add_zero, hf] at he
        cases he
    | error e0 =>
      obtain ⟨iha, ihs, ihok, ihfail⟩ := ih (i + 1)
      have hstep : httpLoop f i (n + 1) =
          ⟨(httpLoop f (i + 1) n).result, (httpLoop f (i + 1) n).attempts + 1,
            (httpLoop f (i + 1) n).sleeps + 1⟩ := by
        simp [httpLoop, hf]
      refine ⟨by rw [hstep]; simpa using iha, by rw [hstep]; simpa using ihs, ?_, ?_⟩
      · intro k v hk hprev hfk
        cases k with
        | zero =>
          rw [Nat.add_zero, hf] at hfk
          cases hfk
        | succ k2 =>
          have hprev2 : ∀ m, m < k2 → ∃ e, f (i + 1 + m) = Except.error e := by
            intro m hm
            obtain ⟨e, he⟩ := hprev (m + 1) (by omega)
            exact ⟨e, by rwa [show i + (m + 1) = i + 1 + m by omega] at he⟩
          have hfk2 : f (i + 1 + k2) = Except.ok v := by
            rwa [show i + (k2 + 1) = i + 1 + k2 by omega] at hfk
          obtain ⟨hres, hatt⟩ := ihok k2 v (by omega) hprev2 hfk2
          rw [hstep]
          exact ⟨hres, by simpa using hatt⟩
      · intro hall
        have hall2 : ∀ m, m ≤ n → ∃ e, f (i + 1 + m) = Except.error e := by
          intro m hm
          obtain ⟨e, he⟩ := hall (m + 1) (by omega)
          exact ⟨e, by rwa [show i + (m + 1) = i + 1 + m by omega] at he⟩
        obtain ⟨e, he, hres, hatt⟩ := ihfail hall2
        refine ⟨e, by rwa [show i + (n + 1) = i + 1 + n by omega], ?_, ?_⟩
        · rw [hstep]; exact hres
        · rw [hstep]; simpa using hatt

/-- C3: for every `maxRetries = N`, `http_json` issues at most `N + 1` attempts
and sleeps exactly once between consecutive attempts; if the first success —
a non-empty JSON-object body — happens on attempt index `k <= N` (all earlier
attempts having failed), it returns that parsed body after exactly `k + 1`
attempts; if all `N + 1` attempts fail, it raises exactly the final attempt's
error message after exactly `N + 1` attempts. -/
theorem C3_http_json_retries (att : Nat → AttemptRes) (method url : PyStr)
    (maxTimeS retries : Nat) :
    (http_json att method url maxTimeS retries).attempts ≤ retries + 1 ∧
    (http_json att method url maxTimeS retries).sleeps + 1 =
      (http_json att method url maxTimeS retries).attempts ∧
    (∀ k raw v, k ≤ retries →
      (∀ m, m < k → ∃ e, classifyAttempt method url maxTimeS (att m) = Except.error e) →
      att k = AttemptRes.response raw (some v) → raw ≠ [] → jIsObj v = true →
      (http_json att method url maxTimeS retries).result = Except.ok v ∧
      (http_json att method url maxTimeS retries).attempts = k + 1) ∧
    ((∀ m, m ≤ retries → ∃ e, classifyAttempt method url maxTimeS (att m) = Except.error e) →
      ∃ e, classifyAttempt method url maxTimeS (att retries) = Except.error e ∧
        (http_json att method url maxTimeS retries).result = Except.error e ∧
        (http_json att method url maxTimeS retries).attempts = retries + 1) := by
  obtain ⟨ha, hs, hok, hfail⟩ :=
    httpLoop_spec (fun m => classifyAttempt method url maxTimeS (att m)) retries 0
  refine ⟨ha, hs, ?_, ?_⟩
  · intro k raw v hk hprev hresp hraw hobj
    have hclass : classifyAttempt method url maxTimeS (att k) = Except.ok v := by
      rw [hresp]
      simp [classifyAttempt, hraw, hobj]
    exact hok k v hk (by simpa using hprev) (by simpa using hclass)
  · intro hall
    obtain ⟨e, he, hres, hatt⟩ := hfail (by simpa using hall)
    exact ⟨e, by simpa using he, hres, hatt⟩

/-- C3 witness: a transport failing on attempts 0 and 1 (timeout, then a
generic failure) and succeeding with an object body on attempt 2, with
`retries = 2`: the call returns the parsed body after exactly 3 attempts. -/
theorem C3_http_json_retries_witness :
    (http_json
      (fun n => if n = 0 then AttemptRes.timeoutErr
        else if n = 1 then AttemptRes.otherErr (lit "boom")
        else AttemptRes.response (lit "x") (some (Jv.jobj [])))
      (lit "POST") (lit "http://backend/rag/query") 60 2).result = Except.ok (Jv.jobj []) ∧
    (http_json
      (fun n => if n = 0 then AttemptRes.timeoutErr
        else if n = 1 then AttemptRes.otherErr (lit "boom")
        else AttemptRes.response (lit "x") (some (Jv.jobj [])))
      (lit "POST") (lit "http://backend/rag/query") 60 2).attempts = 3 :=
  (C3_http_json_retries
    (fun n => if n = 0 then AttemptRes.timeoutErr
      else if n = 1 then AttemptRes.otherErr (lit "boom")
      else AttemptRes.response (lit "x") (some (Jv.jobj [])))
    (lit "POST") (lit "http://backend/rag/query") 60 2).2.2.1 2 (lit "x") (Jv.jobj [])
    (by omega)
    (by
      intro m hm
      interval_cases m
      · exact ⟨_, rfl⟩
      · exact ⟨_, rfl⟩)
    rfl (by decide) rfl

/-! ## Order lemmas for the date sort and the rolling-upsert invariants -/

theorem pyStrLe_total (a : PyStr) : ∀ b, pyStrLe a b = true ∨ pyStrLe b a = true := by
  induction a with
  | nil => intro b; left; rfl
  | cons x xs ih =>
    intro b
    cases b with
    | nil => right; rfl
    | cons y ys =>
      by_cases h1 : x.val.toNat < y.val.toNat
      · left; simp [pyStrLe, h1]
      · by_cases h2 : y.val.toNat < x.val.toNat
        · right; simp [pyStrLe, h2]
        · rcases ih ys with h | h
          · left; simp [pyStrLe, h1, h2, h]
          · right; simp [pyStrLe, h1, h2, h]

theorem pyStrLe_trans (a : PyStr) : ∀ b c, pyStrLe a b = true → pyStrLe b c = true →
    pyStrLe a c = true := by
  induction a with
  | nil => intro b c _ _; rfl
  | cons x xs ih =>
    intro b c h1 h2
    cases b with
    | nil => simp [pyStrLe] at h1
    | cons y ys =>
      cases c with
      | nil => simp [pyStrLe] at h2
      | cons z zs =>
        simp only [pyStrLe] at h1 h2 ⊢
        split_ifs at h1 h2 ⊢ <;>
          first
            | rfl
            | (exact ih ys zs h1 h2)
            | (exact absurd h1 (by decide))
            | (exact absurd h2 (by decide))
            | (exfalso; omega)

theorem dateDesc_isTotal : IsTotal FeedItem dateDesc :=
  ⟨fun a b => pyStrLe_total b.date a.date⟩

theorem dateDesc_isTrans : IsTrans FeedItem dateDesc :=
  ⟨fun a b c hab hbc => pyStrLe_trans c.date b.date a.date hbc hab⟩

theorem upsert_by_date_spec (items : List FeedItem) (date text : PyStr)
    (place : Option PyStr) (limit : Int)
    (hnd : (items.map FeedItem.date).Nodup) :
    ((upsert_by_date items date text place limit).map FeedItem.date).Nodup ∧
    List.Sorted dateDesc (upsert_by_date items date text place limit) ∧
    (upsert_by_date items date text place limit).length ≤ (max 1 limit).toNat := by
  unfold upsert_by_date
  refine ⟨?_, ?_, List.length_take_le _ _⟩
  · have hkeptsub : (items.filter (fun x => decide (x.date ≠ date))).Sublist items :=
      List.filter_sublist _
    have hkeptnd : ((items.filter (fun x => decide (x.date ≠ date))).map FeedItem.date).Nodup :=
      hnd.sublist (hkeptsub.map _)
    have hdnotin : date ∉ (items.filter (fun x => decide (x.date ≠ date))).map FeedItem.date := by
      intro hmem
      simp only [List.mem_map, List.mem_filter, decide_eq_true_eq] at hmem
      obtain ⟨x, ⟨_, hne⟩, hxd⟩ := hmem
      exact hne hxd
    have hmidnd : (((items.filter (fun x => decide (x.date ≠ date))) ++
        [(⟨date, text, place⟩ : FeedItem)]).map FeedItem.date).Nodup := by
      rw [List.map_append]
      rw [List.nodup_append]
      refine ⟨hkeptnd, by simp, ?_⟩
      intro a ha hb
      simp only [List.map_cons, List.map_nil, List.mem_singleton] at hb
      subst hb
      exact hdnotin ha
    have hperm := List.perm_insertionSort dateDesc
      ((items.filter (fun x => decide (x.date ≠ date))) ++ [(⟨date, text, place⟩ : FeedItem)])
    have hsortnd := ((hperm.map FeedItem.date).nodup_iff).mpr hmidnd
    exact hsortnd.sublist ((List.take_sublist _ _).map _)
  · have hsorted := @List.sorted_insertionSort FeedItem dateDesc _
      dateDesc_isTotal dateDesc_isTrans
      ((items.filter (fun x => decide (x.date ≠ date))) ++ [(⟨date, text, place⟩ : FeedItem)])
    exact List.Pairwise.sublist (List.take_sublist _ _) hsorted

theorem apply_upserts_spec (runs : List (PyStr × PyStr × Option PyStr)) (limit : Int) :
    ((apply_upserts runs limit).map FeedItem.date).Nodup ∧
    List.Sorted dateDesc (apply_upserts runs limit) ∧
    (apply_upserts runs limit).length ≤ max (max 1 limit).toNat 0 := by
  suffices h : ∀ s : List FeedItem, (s.map FeedItem.date).Nodup →
      List.Sorted dateDesc s → s.length ≤ max (max 1 limit).toNat 0 →
      ((runs.foldl (fun t r => upsert_by_date t r.1 r.2.1 r.2.2 limit) s).map FeedItem.date).Nodup ∧
      List.Sorted dateDesc (runs.foldl (fun t r => upsert_by_date t r.1 r.2.1 r.2.2 limit) s) ∧
      (runs.foldl (fun t r => upsert_by_date t r.1 r.2.1 r.2.2 limit) s).length ≤
        max (max 1 limit).toNat 0 by
    exact h [] (by simp) (by simp) (by simp)
  induction runs with
  | nil => intro s h1 h2 h3; exact ⟨h1, h2, h3⟩
  | cons r rest ih =>
    intro s h1 _ _
    obtain ⟨g1, g2, g3⟩ := upsert_by_date_spec s r.1 r.2.1 r.2.2 limit h1
    exact ih _ g1 g2 (le_trans g3 (le_max_left _ _))

/-- C2: the rolling upsert removes any existing item with the new entry's date,
inserts the new entry, sorts by date descending and truncates to
`max(1, maxItems)`; hence (starting from a feed with no duplicate dates, in
particular across any run of upserts from the empty feed) the feed keeps at
most one entry per date, stays sorted by date descending, and has length at
most `max(1, maxItems)`; with `maxItems = 2`, upserting dates 2024-01-01,
2024-01-02, 2024-01-03 in order yields exactly [2024-01-03, 2024-01-02]. -/
theorem C2_upsert_rolling_feed :
    (∀ items date text place limit, upsert_by_date items date text place limit =
      (List.insertionSort dateDesc
        ((items.filter fun x => decide (x.date ≠ date)) ++
          [(⟨date, text, place⟩ : FeedItem)])).take (max 1 limit).toNat) ∧
    (∀ items date text place limit, (items.map FeedItem.date).Nodup →
      ((upsert_by_date items date text place limit).map FeedItem.date).Nodup ∧
      List.Sorted dateDesc (upsert_by_date items date text place limit) ∧
      (upsert_by_date items date text place limit).length ≤ (max 1 limit).toNat) ∧
    (∀ runs limit, ((apply_upserts runs limit).map FeedItem.date).Nodup ∧
      List.Sorted dateDesc (apply_upserts runs limit) ∧
      (apply_upserts runs limit).length ≤ (max 1 limit).toNat) ∧
    apply_upserts [(lit "2024-01-01", lit "a", none), (lit "2024-01-02", lit "b", none),
        (lit "2024-01-03", lit "c", none)] 2 =
      [⟨lit "2024-01-03", lit "c", none⟩, ⟨lit "2024-01-02", lit "b", none⟩] := by
  refine ⟨fun items date text place limit => rfl, upsert_by_date_spec, fun runs limit => ?_,
    by decide⟩
  obtain ⟨a, b, c⟩ := apply_upserts_spec runs limit
  exact ⟨a, b, by simpa using c⟩

/-- C2 witness: one upsert applied to a concrete duplicate-free feed. -/
theorem C2_upsert_rolling_feed_witness :
    (([(⟨lit "2024-01-05", lit "x", none⟩ : FeedItem)]).map FeedItem.date).Nodup ∧
    (((upsert_by_date [⟨lit "2024-01-05", lit "x", none⟩] (lit "2024-01-06") (lit "y")
        none 7).map FeedItem.date).Nodup ∧
      List.Sorted dateDesc (upsert_by_date [⟨lit "2024-01-05", lit "x", none⟩]
        (lit "2024-01-06") (lit "y") none 7) ∧
      (upsert_by_date [⟨lit "2024-01-05", lit "x", none⟩] (lit "2024-01-06") (lit "y")
        none 7).length ≤ ((max 1 7 : Int)).toNat) :=
  ⟨by decide, C2_upsert_rolling_feed.2.1 [⟨lit "2024-01-05", lit "x", none⟩]
    (lit "2024-01-06") (lit "y") none 7 (by decide)⟩

/-! ## Diversifier lemmas -/

theorem perm_toFinset {α : Type} [DecidableEq α] {l1 l2 : List α} (h : l1.Perm l2) :
    l1.toFinset = l2.toFinset := by
  ext a
  simp only [List.mem_toFinset]
  exact h.mem_iff

theorem newKeys_cons_mem {c : RAGChunk} (rest : List RAGChunk) {seen : List PyStr}
    (h : dedupKey c ∈ seen) : newKeys (c :: rest) seen = newKeys rest seen := by
  unfold newKeys
  congr 1
  rw [List.map_cons, List.toFinset_cons]
  ext x
  simp only [Finset.mem_sdiff, Finset.mem_insert]
  constructor
  · rintro ⟨hx | hx, hs⟩
    · exact absurd (hx ▸ List.mem_toFinset.mpr h) hs
    · exact ⟨hx, hs⟩
  · rintro ⟨hx, hs⟩
    exact ⟨Or.inr hx, hs⟩

theorem newKeys_cons_not_mem {c : RAGChunk} (rest : List RAGChunk) {seen : List PyStr}
    (h : dedupKey c ∉ seen) :
    newKeys (c :: rest) seen = newKeys rest (dedupKey c :: seen) + 1 := by
  unfold newKeys
  rw [List.map_cons, List.toFinset_cons, List.toFinset_cons]
  have hk : dedupKey c ∉ seen.toFinset := fun hx => h (List.mem_toFinset.mp hx)
  have h1 : insert (dedupKey c) (rest.map dedupKey).toFinset \ seen.toFinset =
      insert (dedupKey c)
        ((rest.map dedupKey).toFinset \ insert (dedupKey c) seen.toFinset) := by
    ext x
    simp only [Finset.mem_insert, Finset.mem_sdiff]
    by_cases hxk : x = dedupKey c
    · subst hxk
      simp [hk]
    · tauto
  rw [h1, Finset.card_insert_of_not_mem (by simp)]

theorem diversifyLoop_spec (want : Nat) (cs : List RAGChunk) : ∀ (seen : List PyStr)
    (acc : List RAGChunk), acc.length < want →
    seen.toFinset = (acc.map dedupKey).toFinset →
    (acc.map dedupKey).Nodup →
    ∃ sub, sub.Sublist cs ∧
      diversifyLoop want cs seen acc = acc.reverse ++ sub ∧
      ((acc.reverse ++ sub).map dedupKey).Nodup ∧
      (acc.reverse ++ sub).length = min want (acc.length + newKeys cs seen) := by
  induction cs with
  | nil =>
    intro seen acc hlen hseen hnd
    refine ⟨[], List.nil_sublist _, by simp [diversifyLoop], ?_, ?_⟩
    · simp only [List.append_nil]
      rw [List.map_reverse]
      exact List.nodup_reverse.mpr hnd
    · simp only [List.append_nil, List.length_reverse]
      unfold newKeys
      simp only [List.map_nil, List.toFinset_nil, Finset.empty_sdiff, Finset.card_empty,
        Nat.add_zero]
      omega
  | cons c rest ih =>
    intro seen acc hlen hseen hnd
    by_cases hmem : dedupKey c ∈ seen
    · obtain ⟨sub, hsub, heq, hndR, hlenR⟩ := ih seen acc hlen hseen hnd
      refine ⟨sub, hsub.cons c, ?_, hndR, ?_⟩
      · simp only [diversifyLoop, if_pos hmem]
        exact heq
      · rw [newKeys_cons_mem rest hmem]
        exact hlenR
    · have hnotin : dedupKey c ∉ acc.map dedupKey := by
        intro hx
        apply hmem
        have hx2 := List.mem_toFinset.mpr hx
        rw [← hseen] at hx2
        exact List.mem_toFinset.mp hx2
      by_cases hwant : want ≤ acc.length + 1
      · refine ⟨[c], (List.nil_sublist rest).cons₂ c, ?_, ?_, ?_⟩
        · simp only [diversifyLoop, if_neg hmem, if_pos hwant]
          rw [List.reverse_cons]
        · rw [List.map_append, List.map_reverse, List.nodup_append]
          refine ⟨List.nodup_reverse.mpr hnd, by simp, ?_⟩
          intro a ha hb
          simp only [List.map_cons, List.map_nil, List.mem_singleton] at hb
          subst hb
          exact hnotin (List.mem_reverse.mp ha)
        · have h1 := newKeys_cons_not_mem rest hmem
          rw [List.length_append, List.length_reverse, h1]
          simp only [List.length_cons, List.length_nil]
          omega
      · have hseen2 : (dedupKey c :: seen).toFinset = ((c :: acc).map dedupKey).toFinset := by
          rw [List.toFinset_cons, List.map_cons, List.toFinset_cons, hseen]
        have hnd2 : ((c :: acc).map dedupKey).Nodup := by
          rw [List.map_cons, List.nodup_cons]
          exact ⟨hnotin, hnd⟩
        obtain ⟨sub, hsub, heq, hndR, hlenR⟩ :=
          ih (dedupKey c :: seen) (c :: acc) (by simp only [List.length_cons]; omega) hseen2 hnd2
        have hsame : (c :: acc).reverse ++ sub = acc.reverse ++ (c :: sub) := by
          rw [List.reverse_cons, List.append_assoc]
          rfl
        refine ⟨c :: sub, hsub.cons₂ c, ?_, ?_, ?_⟩
        · simp only [diversifyLoop, if_neg hmem, if_neg hwant]
          rw [heq, hsame]
        · rw [← hsame]
          exact hndR
        · rw [← hsame, hlenR, newKeys_cons_not_mem rest hmem]
          simp only [List.length_cons]
          congr 1
          omega

/-- C1: for every candidate list and every `want >= 1`, the diversification
step returns a sequence whose length is `min(want, number of distinct dedup
keys)`, which is ordered by non-decreasing distance, and which contains no two
elements with the same dedup key (the key being the truthy metadata `file`
value, else the truthy metadata `doc_id` value, else the first 40 characters of
the text). -/
theorem C1_diversify_correct (chunks : List RAGChunk) (want : Nat) (hw : 1 ≤ want) :
    (diversify chunks want).length = min want (distinctKeys chunks) ∧
    List.Sorted distLe (diversify chunks want) ∧
    ((diversify chunks want).map dedupKey).Nodup := by
  have hperm := List.perm_insertionSort distLe chunks
  obtain ⟨sub, hsub, heq, hnd, hlen⟩ := diversifyLoop_spec want
    (List.insertionSort distLe chunks) [] [] (by simp only [List.length_nil]; omega)
    (by simp) (by simp)
  simp only [List.reverse_nil, List.nil_append, List.length_nil, Nat.zero_add] at heq hnd hlen
  have hnewkeys : newKeys (List.insertionSort distLe chunks) [] = distinctKeys chunks := by
    unfold newKeys distinctKeys
    rw [List.toFinset_nil, Finset.sdiff_empty]
    congr 1
    exact perm_toFinset (hperm.map dedupKey)
  cases hsubnil : sub with
  | nil =>
    rw [hsubnil] at heq hlen
    have hnk : distinctKeys chunks = 0 := by
      rw [← hnewkeys]
      simp only [List.length_nil] at hlen
      omega
    have hchunks : chunks = [] := by
      cases hch : chunks with
      | nil => rfl
      | cons a l =>
        exfalso
        have hmem : dedupKey a ∈ ((a :: l).map dedupKey).toFinset := by simp
        have hcard : (((a :: l).map dedupKey).toFinset).card = 0 := by
          rw [← hch]
          exact hnk
        rw [Finset.card_eq_zero] at hcard
        rw [hcard] at hmem
        exact absurd hmem (Finset.not_mem_empty _)
    subst hchunks
    refine ⟨?_, ?_, ?_⟩ <;> simp [diversify, diversifyLoop, distinctKeys, List.insertionSort]
  | cons c0 sub0 =>
    rw [hsubnil] at heq hnd hlen hsub
    have hdiv : diversify chunks want = c0 :: sub0 := by
      unfold diversify
      rw [heq]
      rfl
    rw [hdiv]
    refine ⟨?_, ?_, hnd⟩
    · rw [hnewkeys] at hlen
      exact hlen
    · exact List.Pairwise.sublist hsub (List.sorted_insertionSort distLe chunks)

/-- C1 witness: diversification applied at a concrete candidate list with
`want = 2` and three distinct dedup keys. -/
theorem C1_diversify_correct_witness :
    1 ≤ 2 ∧
    ((diversify [⟨lit "aaaa", 10, some (lit "A"), none⟩, ⟨lit "bbbb", 20, some (lit "A"), none⟩,
        ⟨lit "cccc", 15, some (lit "B"), none⟩, ⟨lit "dddd", 30, none, some (lit "C")⟩]
        2).length =
      min 2 (distinctKeys [⟨lit "aaaa", 10, some (lit "A"), none⟩,
        ⟨lit "bbbb", 20, some (lit "A"), none⟩, ⟨lit "cccc", 15, some (lit "B"), none⟩,
        ⟨lit "dddd", 30, none, some (lit "C")⟩]) ∧
    List.Sorted distLe (diversify [⟨lit "aaaa", 10, some (lit "A"), none⟩,
        ⟨lit "bbbb", 20, some (lit "A"), none⟩, ⟨lit "cccc", 15, some (lit "B"), none⟩,
        ⟨lit "dddd", 30, none, some (lit "C")⟩] 2) ∧
    ((diversify [⟨lit "aaaa", 10, some (lit "A"), none⟩, ⟨lit "bbbb", 20, some (lit "A"), none⟩,
        ⟨lit "cccc", 15, some (lit "B"), none⟩, ⟨lit "dddd", 30, none, some (lit "C")⟩]
        2).map dedupKey).Nodup) :=
  ⟨by omega, C1_diversify_correct
    [⟨lit "aaaa", 10, some (lit "A"), none⟩, ⟨lit "bbbb", 20, some (lit "A"), none⟩,
      ⟨lit "cccc", 15, some (lit "B"), none⟩, ⟨lit "dddd", 30, none, some (lit "C")⟩]
    2 (by omega)⟩
